import Mathlib

/-!
Verification development for the TwitterAnalytics repository
(src/TwitterAnalytics.py and src/main.py).

Strings are embedded as `List Char`.  Python's `str.upper` / `unidecode`
are modelled on the ASCII range plus a table of common Latin accented
letters; Python's `str.replace`, `str.split(' ')`, `str.strip`, the `in`
operator and the two regex operations used by the source
(`re.search('RT', _)`, `re.search(':', _)`, and
`re.sub('HTTP://\x5cS+|HTTPS://\x5cS+', '', _)`) are embedded directly.
Recursion that consumes a non-structural amount of input uses an explicit
fuel argument (always called with fuel strictly larger than the input
length) so that all definitions compute by kernel reduction.
-/

/-- `leadsWith pat l` is true when `pat` is a prefix of `l`
(the primitive under Python substring search). -/
def leadsWith : List Char → List Char → Bool
  | [], _ => true
  | _ :: _, [] => false
  | p :: ps, c :: cs => decide (p = c) && leadsWith ps cs

/-- Python's `pat in txt` substring test. -/
def containsSub (pat : List Char) : List Char → Bool
  | [] => leadsWith pat []
  | c :: cs => leadsWith pat (c :: cs) || containsSub pat cs

/-- Index of the first occurrence of `pat` in the text, i.e. the `span()[0]`
of `re.search(pat, txt)` for a pattern with no metacharacters; `none` when
the search fails. -/
def firstSubIdx (pat : List Char) : List Char → Option Nat
  | [] => if leadsWith pat [] then some 0 else none
  | c :: cs =>
    if leadsWith pat (c :: cs) then some 0
    else (firstSubIdx pat cs).map (fun n => n + 1)

/-- Worker for `pyReplace`; `fuel` is kept above the length of the text so
the first branch is never reached. -/
def pyReplaceGo (pat : List Char) : Nat → List Char → List Char
  | 0, l => l
  | _ + 1, [] => []
  | f + 1, c :: cs =>
    if leadsWith pat (c :: cs) then pyReplaceGo pat f (cs.drop (pat.length - 1))
    else c :: pyReplaceGo pat f cs

/-- Python's `txt.replace(pat, '')`: removes every leftmost non-overlapping
occurrence of `pat`; an empty pattern leaves the text unchanged. -/
def pyReplace (l pat : List Char) : List Char :=
  if pat = [] then l else pyReplaceGo pat (l.length + 1) l

/-- ASCII whitespace, the characters stripped by Python's `str.strip()` and
rejected by the regex class `\x5cS`. -/
def isSpaceChar (c : Char) : Bool :=
  decide (c = ' ') || decide (c = '\t') || decide (c = '\n') ||
  decide (c = '\r') || decide (c = '\x0b') || decide (c = '\x0c')

/-- Length of the match of `HTTP://\x5cS+|HTTPS://\x5cS+` anchored at the
head of the text, `none` when neither alternative matches here. -/
def matchLink (l : List Char) : Option Nat :=
  if leadsWith ("HTTP://".toList) l then
    (fun k => if k = 0 then none else some (7 + k))
      ((l.drop 7).takeWhile (fun c => !isSpaceChar c)).length
  else if leadsWith ("HTTPS://".toList) l then
    (fun k => if k = 0 then none else some (8 + k))
      ((l.drop 8).takeWhile (fun c => !isSpaceChar c)).length
  else none

/-- True when the link regex matches somewhere in the text. -/
def hasLink : List Char → Bool
  | [] => false
  | c :: cs => (matchLink (c :: cs)).isSome || hasLink cs

/-- Worker for `reSubLinks` (fuel as in `pyReplaceGo`). -/
def reSubGo : Nat → List Char → List Char
  | 0, l => l
  | _ + 1, [] => []
  | f + 1, c :: cs =>
    match matchLink (c :: cs) with
    | some n => reSubGo f (cs.drop (n - 1))
    | none => c :: reSubGo f cs

/-- `re.sub('HTTP://\x5cS+|HTTPS://\x5cS+', '', txt)`: delete every match,
scanning left to right. -/
def reSubLinks (l : List Char) : List Char := reSubGo (l.length + 1) l

/-- Lowercase letters beyond ASCII and their uppercase forms: the
non-ASCII part of Python's `str.upper` for the letters this model covers
(Latin accents plus sample letters, such as Cyrillic `ж` and Icelandic
`þ`, whose transliterations are mixed-case). -/
def accentUpper : List (Char × Char) :=
  [('á', 'Á'), ('à', 'À'), ('â', 'Â'), ('ã', 'Ã'), ('ä', 'Ä'),
   ('é', 'É'), ('è', 'È'), ('ê', 'Ê'), ('í', 'Í'),
   ('ó', 'Ó'), ('ô', 'Ô'), ('õ', 'Õ'), ('ú', 'Ú'), ('ü', 'Ü'), ('ç', 'Ç'),
   ('ж', 'Ж'), ('þ', 'Þ')]

/-- ASCII lowercase letters paired with their uppercase forms. -/
def asciiUpper : List (Char × Char) :=
  [('a', 'A'), ('b', 'B'), ('c', 'C'), ('d', 'D'), ('e', 'E'), ('f', 'F'),
   ('g', 'G'), ('h', 'H'), ('i', 'I'), ('j', 'J'), ('k', 'K'), ('l', 'L'),
   ('m', 'M'), ('n', 'N'), ('o', 'O'), ('p', 'P'), ('q', 'Q'), ('r', 'R'),
   ('s', 'S'), ('t', 'T'), ('u', 'U'), ('v', 'V'), ('w', 'W'), ('x', 'X'),
   ('y', 'Y'), ('z', 'Z')]

/-- Python's `str.upper`, per character (ASCII letters and the letters of
`accentUpper`; other characters are unchanged — character-to-character, so
one-to-many upper-casings such as the Eszett are outside the model). -/
def pyUpperChar (c : Char) : Char :=
  match (asciiUpper ++ accentUpper).lookup c with
  | some d => d
  | none => c

/-- `unidecode` per character: ASCII is unchanged, the letters of
`accentAscii` transliterate to the listed ASCII strings — note the
mixed-case multi-letter transliterations of the capitals `Ж` and `Þ`,
which is how the real `unidecode` behaves — and any other non-ASCII
character maps to the empty string (unidecode's behaviour for unmapped
characters). -/
def accentAscii : List (Char × List Char) :=
  [('á', ['a']), ('à', ['a']), ('â', ['a']), ('ã', ['a']), ('ä', ['a']),
   ('é', ['e']), ('è', ['e']), ('ê', ['e']), ('í', ['i']),
   ('ó', ['o']), ('ô', ['o']), ('õ', ['o']), ('ú', ['u']), ('ü', ['u']),
   ('ç', ['c']),
   ('Á', ['A']), ('À', ['A']), ('Â', ['A']), ('Ã', ['A']), ('Ä', ['A']),
   ('É', ['E']), ('È', ['E']), ('Ê', ['E']), ('Í', ['I']),
   ('Ó', ['O']), ('Ô', ['O']), ('Õ', ['O']), ('Ú', ['U']), ('Ü', ['U']),
   ('Ç', ['C']),
   ('ж', ['z', 'h']), ('Ж', ['Z', 'h']), ('þ', ['t', 'h']), ('Þ', ['T', 'h'])]

/-- See `accentAscii`. -/
def unidecodeChar (c : Char) : List Char :=
  if c.toNat < 128 then [c]
  else
    match accentAscii.lookup c with
    | some d => d
    | none => []

/-- The literal token `RT`. -/
def rtTok : List Char := ['R', 'T']

/-- The literal token `:`. -/
def colonTok : List Char := [':']

/-- The two-character literal `\x5cW` (Python's `txt.replace('\x5cW', '')`
replaces this literal string, not the regex class). -/
def bwTok : List Char := ['\\', 'W']

/-- The literal `#`. -/
def hashTok : List Char := ['#']

/-- The newline literal. -/
def nlTok : List Char := ['\n']

/-- The retweet-marker removal step of `cleaning_txt`
(src/TwitterAnalytics.py lines 62-67): when the uppercased text contains
both `RT` and `:`, the slice from the first `RT` to the first `:` overall
(inclusive) is removed everywhere via `str.replace`. -/
def rtStrip (t : List Char) : List Char :=
  if containsSub rtTok t && containsSub colonTok t then
    pyReplace t
      ((t.drop ((firstSubIdx rtTok t).getD 0)).take
        ((firstSubIdx colonTok t).getD 0 + 1 - (firstSubIdx rtTok t).getD 0))
  else t

/-- `rtStrip` with the two `re.search` calls kept as `Option`s: the branch
fails (models the `AttributeError` on `None.span()`) when a search misses. -/
def rtStripOpt (t : List Char) : Option (List Char) :=
  if containsSub rtTok t && containsSub colonTok t then
    match firstSubIdx rtTok t, firstSubIdx colonTok t with
    | some p1, some p2 => some (pyReplace t ((t.drop p1).take (p2 + 1 - p1)))
    | _, _ => none
  else some t

/-- The tail of `cleaning_txt` after the retweet-marker step: remove links,
transliterate, then the three literal replaces (`\x5cW`, `#`, newline). -/
def cleanTail (t : List Char) : List Char :=
  pyReplace
    (pyReplace
      (pyReplace ((reSubLinks t).flatMap unidecodeChar) bwTok)
      hashTok)
    nlTok

/-- `cleaning_txt` (src/TwitterAnalytics.py lines 48-77): uppercase, strip
the retweet marker, remove links, transliterate, drop the literal `\x5cW`,
`#`, and newline. -/
def cleaning_txt (txt : List Char) : List Char :=
  cleanTail (rtStrip (txt.map pyUpperChar))

/-- `cleaning_txt` with the retweet-marker branch's searches modelled as
fallible (`none` = the Python code would crash on `None.span()`). -/
def cleaning_txtOpt (txt : List Char) : Option (List Char) :=
  (rtStripOpt (txt.map pyUpperChar)).map cleanTail

/-- Python's `txt.split(' ')`: split on the single space character, keeping
empty fields (so the result is never the empty list). -/
def splitSpace : List Char → List (List Char)
  | [] => [[]]
  | c :: cs =>
    if c = ' ' then [] :: splitSpace cs
    else
      match splitSpace cs with
      | [] => [[c]]
      | t :: ts => (c :: t) :: ts

/-- Python's `txt.strip()`: drop leading and trailing whitespace. -/
def pyStrip (l : List Char) : List Char :=
  ((l.dropWhile isSpaceChar).reverse.dropWhile isSpaceChar).reverse

/-- One row of the tweets DataFrame, restricted to the columns `analyze`
uses (src/TwitterAnalytics.py line 182).  `location` is `none` for a null
cell. -/
structure Post where
  text : List Char
  username : List Char
  location : Option (List Char)
  likes : Nat
  retweets : Nat
  verified : Bool

/-- The exploded token stream: every tweet text split on `' '`, flattened
in row order (src/TwitterAnalytics.py lines 184-186). -/
def rawTokens (posts : List Post) : List (List Char) :=
  posts.flatMap (fun p => splitSpace p.text)

/-- The stopword set `analyze` filters against: the `pt` set when the
selected language is exactly `"pt"`, the `en` set otherwise (also when no
language was given) — src/TwitterAnalytics.py lines 191-198. -/
def chosenStopwords (lang : Option String) (swPt swEn : List (List Char)) :
    List (List Char) :=
  if lang = some "pt" then swPt else swEn

/-- The token stream after the stopword filter, mirroring the two branches
of the source: a token survives when its `cleaning_txt` form is not in the
selected stopword list. -/
def stopFiltered (lang : Option String) (swPt swEn : List (List Char))
    (posts : List Post) : List (List Char) :=
  if lang = some "pt" then
    (rawTokens posts).filter (fun w => !decide (cleaning_txt w ∈ swPt))
  else
    (rawTokens posts).filter (fun w => !decide (cleaning_txt w ∈ swEn))

/-- The cleaned column after `str.strip` (src/TwitterAnalytics.py
line 201). -/
def strippedTokens (lang : Option String) (swPt swEn : List (List Char))
    (posts : List Post) : List (List Char) :=
  (stopFiltered lang swPt swEn posts).map (fun w => pyStrip (cleaning_txt w))

/-- The surviving tokens after dropping the empty string and the literal
`RT` (src/TwitterAnalytics.py line 204). -/
def survivors (lang : Option String) (swPt swEn : List (List Char))
    (posts : List Post) : List (List Char) :=
  (strippedTokens lang swPt swEn posts).filter
    (fun w => !(decide (w = []) || decide (w = rtTok)))

/-- The distinct values of a token stream in first-encountered order. -/
def uniqueList : List (List Char) → List (List Char)
  | [] => []
  | w :: ws => w :: (uniqueList ws).filter (fun v => !decide (v = w))

/-- Code-point lexicographic order on strings — the order pandas uses when
`groupby` sorts object keys. -/
def lexLt : List Char → List Char → Bool
  | [], [] => false
  | [], _ :: _ => true
  | _ :: _, [] => false
  | c :: cs, d :: ds =>
    decide (c.toNat < d.toNat) || (decide (c.toNat = d.toNat) && lexLt cs ds)

/-- Insert into a lexicographically ascending list. -/
def insLex (w : List Char) : List (List Char) → List (List Char)
  | [] => [w]
  | v :: vs => if lexLt v w then v :: insLex w vs else w :: v :: vs

/-- Sort ascending lexicographically (the group order produced by pandas
`groupby(sort=True)` on string keys). -/
def sortLexAsc (l : List (List Char)) : List (List Char) := l.foldr insLex []

/-- Number of occurrences of `w` in the stream: the `count()` of the
group with key `w`. -/
def countW (s : List (List Char)) (w : List Char) : Nat :=
  (s.filter (fun v => decide (v = w))).length

/-- The groupby-count table: one `(value, count)` row per distinct value,
rows in ascending key order (pandas `groupby(col)[col].count()`). -/
def wordQtd (s : List (List Char)) : List (List Char × Nat) :=
  (sortLexAsc (uniqueList s)).map (fun w => (w, countW s w))

/-- Insert into a list that is ascending by count, placing the new element
before the first row whose count is not smaller (a stable ascending
insertion, matching numpy's small-array insertion sort). -/
def insCnt (x : List Char × Nat) :
    List (List Char × Nat) → List (List Char × Nat)
  | [] => [x]
  | y :: ys => if y.2 < x.2 then y :: insCnt x ys else x :: y :: ys

/-- Stable ascending sort by count. -/
def sortCntAsc (l : List (List Char × Nat)) : List (List Char × Nat) :=
  l.foldr insCnt []

/-- `sort_values('Qtd.', ascending=False)` applied to a groupby-count
table: pandas performs an ascending argsort and reverses it, so the model
is the reverse of a stable ascending sort. -/
def groupCounts (s : List (List Char)) : List (List Char × Nat) :=
  (sortCntAsc (wordQtd s)).reverse

/-- The `top_10` view: first ten rows of the descending word-count table
(src/TwitterAnalytics.py lines 207-214). -/
def top10 (lang : Option String) (swPt swEn : List (List Char))
    (posts : List Post) : List (List Char × Nat) :=
  (groupCounts (survivors lang swPt swEn posts)).take 10

/-- The location column restricted to non-null rows, normalized
(src/TwitterAnalytics.py lines 221-222). -/
def locStream (posts : List Post) : List (List Char) :=
  (posts.filterMap Post.location).map cleaning_txt

/-- The `location` view: tweets grouped and counted by normalized
location, sorted descending by count (src/TwitterAnalytics.py
lines 221-224). -/
def locationView (posts : List Post) : List (List Char × Nat) :=
  groupCounts (locStream posts)

/-- The `verified` view: rows whose author is verified
(src/TwitterAnalytics.py line 231). -/
def verifiedView (posts : List Post) : List Post :=
  posts.filter (fun p => p.verified)

/-- The maximum of the `likes` column (`0` on an empty frame; unused there
because the filter below is over no rows). -/
def maxLikes (posts : List Post) : Nat :=
  (posts.map Post.likes).foldr Nat.max 0

/-- The `most_liked` view: rows attaining the maximum like count, narrowed
to the first row by `iloc[0:1]` (src/TwitterAnalytics.py lines 236-237). -/
def mostLiked (posts : List Post) : List Post :=
  ((posts.filter (fun p => decide (p.likes = maxLikes posts))).take 1)

/-- The maximum of the `retweets` column. -/
def maxRetweets (posts : List Post) : Nat :=
  (posts.map Post.retweets).foldr Nat.max 0

/-- The `most_retweets` view (src/TwitterAnalytics.py lines 242-243). -/
def mostRetweeted (posts : List Post) : List Post :=
  ((posts.filter (fun p => decide (p.retweets = maxRetweets posts))).take 1)

/-- The `by_user` view of src/main.py lines 163-164: tweets grouped and
counted by the verbatim username, sorted descending by count. -/
def byUser (posts : List Post) : List (List Char × Nat) :=
  groupCounts (posts.map Post.username)

/-- The `all_langs` whitelist of `TwitterAnalytics.__init__`. -/
def all_langs : List String := ["pt", "en"]

/-- The state a successfully constructed `TwitterAnalytics` object holds
(the fields set by `__init__`; the DataFrame starts empty and is not
modelled here). -/
structure TAState where
  lang : Option String

/-- `TwitterAnalytics.__init__` (src/TwitterAnalytics.py lines 86-96 and
src/main.py lines 20-30): a `KeyError` carrying the fixed message prefix
and the permitted set is raised when a language is given and is not in
`all_langs`; the constructor performs no network or file I/O (it is a pure
function of its arguments). -/
def TAinit (lang : Option String) : Except (String × List String) TAState :=
  if decide (lang ∉ all_langs.map some ∧ lang ≠ none) then
    Except.error ("Language not avaible. Choose between: ", all_langs)
  else Except.ok ⟨lang⟩

/-- Modelled from the spec (claim C4's wording, for comparison with
`rtStrip`): remove the substring from the marker's first occurrence
through the first colon that follows it, inclusive; unchanged when the
marker is absent or no colon follows it. -/
def rtStripSpec (t : List Char) : List Char :=
  match firstSubIdx rtTok t with
  | none => t
  | some p1 =>
    match firstSubIdx colonTok (t.drop p1) with
    | none => t
    | some d => t.take p1 ++ t.drop (p1 + d + 1)

/-- Insert into a descending-by-count list, walking past strictly greater
counts: a stable descending insertion. -/
def insCntD (x : List Char × Nat) :
    List (List Char × Nat) → List (List Char × Nat)
  | [] => [x]
  | y :: ys => if x.2 < y.2 then y :: insCntD x ys else x :: y :: ys

/-- Modelled from the spec (claim C6's wording, for comparison with
`top10`): group surviving tokens by value in first-encountered order,
count, sort descending by count with a stable sort (ties keep
first-encountered order), take the top ten. -/
def rankingSpecFE (s : List (List Char)) : List (List Char × Nat) :=
  (((uniqueList s).map (fun w => (w, countW s w))).foldr insCntD []).take 10

/-- `True` exactly when the string is made of uppercase ASCII letters and
digits only. -/
def onlyUpperDigit (l : List Char) : Bool :=
  l.all (fun c => decide ('A' ≤ c ∧ c ≤ 'Z') || decide ('0' ≤ c ∧ c ≤ '9'))

/-- A concrete verified post used by witnesses. -/
def demoPostA : Post :=
  ⟨"Hello".toList, "alice".toList, some ("SP".toList), 5, 7, true⟩

/-- A concrete unverified post that ties `demoPostA` on likes and
retweets. -/
def demoPostB : Post :=
  ⟨"world".toList, "bob".toList, none, 5, 7, false⟩

/-- Ascending row order: smaller count first; on equal counts,
lexicographically smaller word first. -/
def ordA (a b : List Char × Nat) : Prop :=
  a.2 < b.2 ∨ (a.2 = b.2 ∧ lexLt a.1 b.1 = true)

/-- Descending row order: larger count first; on equal counts,
lexicographically larger word first. -/
def ordD (a b : List Char × Nat) : Prop :=
  b.2 < a.2 ∨ (b.2 = a.2 ∧ lexLt b.1 a.1 = true)

/-- A concrete post whose text produces two distinct tokens of equal
count. -/
def demoPostAB : Post :=
  ⟨"A B".toList, "carol".toList, none, 0, 0, false⟩

/-- The sum of the count column. -/
def sumSnd (l : List (List Char × Nat)) : Nat := (l.map Prod.snd).sum

/-- A concrete post whose only token is the stopword `THE`. -/
def demoPostTHE : Post :=
  ⟨"THE".toList, "dave".toList, none, 0, 0, false⟩

/-! ### Generic list lemmas -/

/-- A filter and its complement split the length of a list. -/
theorem length_filter_split (l : List α) (p : α → Bool) :
    (l.filter p).length + (l.filter (fun x => !p x)).length = l.length := by
  induction l with
  | nil => rfl
  | cons a as ih =>
    by_cases h : p a = true
    · simp [List.filter_cons, h, ← ih]; omega
    · simp only [Bool.not_eq_true] at h
      simp [List.filter_cons, h, ← ih]; omega

/-- Filtering strictly shrinks a list that has an element failing the
predicate. -/
theorem length_filter_lt (l : List α) (p : α → Bool) (x : α)
    (hx : x ∈ l) (hp : p x = false) : (l.filter p).length < l.length := by
  induction l with
  | nil => cases hx
  | cons a as ih =>
    rcases List.mem_cons.mp hx with rfl | hmem
    · simp [List.filter_cons, hp]
      calc (as.filter p).length ≤ as.length := as.length_filter_le p
        _ < as.length + 1 := Nat.lt_succ_self _
    · by_cases h : p a = true
      · simpa [List.filter_cons, h] using Nat.succ_lt_succ (ih hmem)
      · simp only [Bool.not_eq_true] at h
        simp [List.filter_cons, h]
        calc (as.filter p).length < as.length := ih hmem
          _ < as.length + 1 := Nat.lt_succ_self _

/-- The sum of a prefix is at most the sum of the whole list. -/
theorem sum_take_le (l : List Nat) (n : Nat) : (l.take n).sum ≤ l.sum := by
  conv_rhs => rw [← List.take_append_drop n l]
  rw [List.sum_append]
  exact Nat.le_add_right _ _

/-- A successful association-list lookup exhibits a member pair. -/
theorem lookup_mem {β : Type} {tbl : List (Char × β)} {c : Char} {d : β}
    (h : tbl.lookup c = some d) : (c, d) ∈ tbl := by
  induction tbl with
  | nil => cases h
  | cons p ps ih =>
    by_cases hc : c == p.1
    · rw [List.lookup, hc] at h
      cases h
      have : c = p.1 := by simpa using hc
      subst this
      exact List.mem_cons_self _ _
    · rw [List.lookup, Bool.of_not_eq_true hc] at h
      exact List.mem_cons_of_mem _ (ih h)

/-! ### Substring and replace lemmas -/

/-- A true substring test yields a first index. -/
theorem contains_first {pat l : List Char} (h : containsSub pat l = true) :
    ∃ n, firstSubIdx pat l = some n := by
  induction l with
  | nil =>
    refine ⟨0, ?_⟩
    rw [containsSub] at h
    simp [firstSubIdx, h]
  | cons c cs ih =>
    rw [containsSub, Bool.or_eq_true] at h
    by_cases hl : leadsWith pat (c :: cs) = true
    · exact ⟨0, by simp [firstSubIdx, hl]⟩
    · rcases h with h | h
      · exact absurd h hl
      · obtain ⟨n, hn⟩ := ih h
        exact ⟨n + 1, by simp [firstSubIdx, hl, hn]⟩

/-- Characters of a replace result come from the input. -/
theorem mem_pyReplaceGo {pat : List Char} {x : Char} :
    ∀ {f : Nat} {l : List Char}, x ∈ pyReplaceGo pat f l → x ∈ l := by
  intro f
  induction f with
  | zero =>
    intro l h
    simp only [pyReplaceGo] at h
    exact h
  | succ f ih =>
    intro l h
    match l with
    | [] =>
      simp only [pyReplaceGo] at h
      exact h
    | c :: cs =>
      rw [pyReplaceGo] at h
      by_cases hl : leadsWith pat (c :: cs) = true
      · rw [if_pos hl] at h
        have := ih h
        exact List.mem_cons_of_mem _ (List.mem_of_mem_drop this)
      · rw [if_neg hl] at h
        rcases List.mem_cons.mp h with rfl | hmem
        · exact List.mem_cons_self _ _
        · exact List.mem_cons_of_mem _ (ih hmem)

/-- Characters of a replace result come from the input. -/
theorem mem_pyReplace {pat l : List Char} {x : Char}
    (h : x ∈ pyReplace l pat) : x ∈ l := by
  rw [pyReplace] at h
  by_cases hp : pat = []
  · rwa [if_pos hp] at h
  · exact mem_pyReplaceGo (by rwa [if_neg hp] at h)

/-- Replacing a pattern that does not occur is the identity. -/
theorem pyReplaceGo_of_not_contains {pat : List Char} :
    ∀ {f : Nat} {l : List Char}, containsSub pat l = false →
      pyReplaceGo pat f l = l := by
  intro f
  induction f with
  | zero => intro l _; rfl
  | succ f ih =>
    intro l h
    match l with
    | [] => rfl
    | c :: cs =>
      rw [containsSub, Bool.or_eq_false_iff] at h
      rw [pyReplaceGo, if_neg (by simp [h.1]), ih h.2]

/-- Replacing a pattern that does not occur is the identity. -/
theorem pyReplace_of_not_contains {pat l : List Char}
    (h : containsSub pat l = false) : pyReplace l pat = l := by
  rw [pyReplace]
  by_cases hp : pat = []
  · rw [if_pos hp]
  · rw [if_neg hp, pyReplaceGo_of_not_contains h]

/-- Replacing a single character is filtering it out (given enough fuel). -/
theorem pyReplaceGo_single {a : Char} :
    ∀ {f : Nat} {l : List Char}, l.length < f →
      pyReplaceGo [a] f l = l.filter (fun c => !decide (c = a)) := by
  intro f
  induction f with
  | zero => intro l h; omega
  | succ f ih =>
    intro l h
    match l with
    | [] => rfl
    | c :: cs =>
      have hcs : cs.length < f := by simpa [Nat.succ_lt_succ_iff] using h
      by_cases hac : a = c
      · subst hac
        rw [pyReplaceGo, if_pos (by simp [leadsWith])]
        simpa [List.filter_cons] using ih hcs
      · rw [pyReplaceGo, if_neg (by simp [leadsWith, hac]), ih hcs]
        simp [List.filter_cons, Ne.symm hac]

/-- Replacing a single character is filtering it out. -/
theorem pyReplace_single (l : List Char) (a : Char) :
    pyReplace l [a] = l.filter (fun c => !decide (c = a)) := by
  rw [pyReplace, if_neg (by simp)]
  exact pyReplaceGo_single (Nat.lt_succ_self _)

/-- Replacing the empty pattern is the identity (Python semantics of
`txt.replace('', '')`). -/
theorem pyReplace_nil (l : List Char) : pyReplace l [] = l := by
  rw [pyReplace, if_pos rfl]

/-! ### Link-removal lemmas -/

/-- Substitution is the identity when the link regex matches nowhere. -/
theorem reSubGo_of_no_link :
    ∀ {f : Nat} {l : List Char}, hasLink l = false → reSubGo f l = l := by
  intro f
  induction f with
  | zero => intro l _; rfl
  | succ f ih =>
    intro l h
    match l with
    | [] => rfl
    | c :: cs =>
      rw [hasLink, Bool.or_eq_false_iff] at h
      have hm : matchLink (c :: cs) = none := by
        cases hx : matchLink (c :: cs)
        · rfl
        · rw [hx] at h; simp at h
      rw [reSubGo, hm, ih h.2]

/-- Substitution is the identity when the link regex matches nowhere. -/
theorem reSubLinks_of_no_link {l : List Char} (h : hasLink l = false) :
    reSubLinks l = l := reSubGo_of_no_link h

/-- Characters of the substitution result come from the input. -/
theorem mem_reSubGo {x : Char} :
    ∀ {f : Nat} {l : List Char}, x ∈ reSubGo f l → x ∈ l := by
  intro f
  induction f with
  | zero =>
    intro l h
    simp only [reSubGo] at h
    exact h
  | succ f ih =>
    intro l h
    match l with
    | [] =>
      simp only [reSubGo] at h
      exact h
    | c :: cs =>
      rw [reSubGo] at h
      cases hm : matchLink (c :: cs) with
      | some n =>
        rw [hm] at h
        exact List.mem_cons_of_mem _ (List.mem_of_mem_drop (ih h))
      | none =>
        rw [hm] at h
        rcases List.mem_cons.mp h with rfl | hmem
        · exact List.mem_cons_self _ _
        · exact List.mem_cons_of_mem _ (ih hmem)

/-- Characters of the substitution result come from the input. -/
theorem mem_reSubLinks {l : List Char} {x : Char} (h : x ∈ reSubLinks l) :
    x ∈ l := mem_reSubGo h

/-! ### Character-level facts about upper-casing and transliteration -/

/-- Every character a transliteration emits is ASCII (the real `unidecode`
also only outputs ASCII; nothing here depends on which ASCII string a
character maps to). -/
theorem unidecode_ascii (c : Char) :
    ∀ x ∈ unidecodeChar c, x.toNat < 128 := by
  intro x hx
  rw [unidecodeChar] at hx
  by_cases hascii : c.toNat < 128
  · rw [if_pos hascii] at hx
    rcases List.mem_singleton.mp hx with rfl
    exact hascii
  · rw [if_neg hascii] at hx
    have tab : ∀ p ∈ accentAscii, ∀ y ∈ p.2, y.toNat < 128 := by decide
    cases hacc : accentAscii.lookup c with
    | some d =>
      rw [hacc] at hx
      exact tab _ (lookup_mem hacc) x hx
    | none =>
      rw [hacc] at hx
      cases hx

/-- Transliteration is the identity on ASCII strings. -/
theorem flatMap_unidecode_id {l : List Char} (h : ∀ x ∈ l, x.toNat < 128) :
    l.flatMap unidecodeChar = l := by
  induction l with
  | nil => rfl
  | cons c cs ih =>
    have hc : unidecodeChar c = [c] := by
      rw [unidecodeChar, if_pos (h c (List.mem_cons_self _ _))]
    rw [List.flatMap_cons, hc, ih (fun x hx => h x (List.mem_cons_of_mem _ hx))]
    rfl

/-! ### rtStrip lemmas -/

/-- Characters of the marker-stripped text come from the input. -/
theorem mem_rtStrip {t : List Char} {x : Char} (h : x ∈ rtStrip t) : x ∈ t := by
  rw [rtStrip] at h
  by_cases hg : (containsSub rtTok t && containsSub colonTok t) = true
  · exact mem_pyReplace (by rwa [if_pos hg] at h)
  · rwa [if_neg hg] at h

/-- The marker-stripping step is the identity when `RT` or `:` is absent. -/
theorem rtStrip_id_of_not {t : List Char}
    (h : ¬(containsSub rtTok t = true ∧ containsSub colonTok t = true)) :
    rtStrip t = t := by
  rw [rtStrip, if_neg]
  intro hg
  exact h (by simpa using hg)

/-! ### Character-level facts about the full normalizer -/

/-- Every character of a normalized string is ASCII: every output
character passes through the transliteration, which only emits ASCII (the
output is **not** always a fixed point of upper-casing — transliterations
such as `Ж` to `Zh` leave lowercase letters in it). -/
theorem cleaning_chars_ascii (t : List Char) :
    ∀ x ∈ cleaning_txt t, x.toNat < 128 := by
  intro x hx
  rw [cleaning_txt, cleanTail] at hx
  have hx4 := mem_pyReplace (mem_pyReplace (mem_pyReplace hx))
  obtain ⟨c3, _, hxc3⟩ := List.mem_flatMap.mp hx4
  exact unidecode_ascii c3 x hxc3

/-- A found first index witnesses the substring test. -/
theorem first_contains {pat l : List Char} {n : Nat}
    (h : firstSubIdx pat l = some n) : containsSub pat l = true := by
  induction l generalizing n with
  | nil =>
    rw [firstSubIdx] at h
    rw [containsSub]
    by_cases hl : leadsWith pat [] = true
    · exact hl
    · rw [if_neg hl] at h; cases h
  | cons c cs ih =>
    rw [firstSubIdx] at h
    rw [containsSub]
    by_cases hl : leadsWith pat (c :: cs) = true
    · simp [hl]
    · rw [if_neg hl] at h
      cases hm : firstSubIdx pat cs with
      | some m => simp [ih hm]
      | none => rw [hm] at h; cases h

/-- The fallible marker-stripping step always succeeds and agrees with the
total one: the guard `'RT' in txt and ':' in txt` guarantees both
`re.search` calls return a match. -/
theorem rtStripOpt_eq (t : List Char) : rtStripOpt t = some (rtStrip t) := by
  rw [rtStripOpt, rtStrip]
  by_cases hg : (containsSub rtTok t && containsSub colonTok t) = true
  · rw [if_pos hg, if_pos hg]
    obtain ⟨hrt, hco⟩ := Bool.and_eq_true_iff.mp hg
    obtain ⟨p1, h1⟩ := contains_first hrt
    obtain ⟨p2, h2⟩ := contains_first hco
    rw [h1, h2]
    simp
  · rw [if_neg hg, if_neg hg]

/-- Claim C10: `cleaning_txt` is total: the marker-stripping branch is
guarded by membership of both `RT` and `:` in the uppercased text, which
guarantees both regex searches succeed, so the fallible model returns
`some` of the total model's value on every input. -/
theorem claim_C10_cleaning_total (t : List Char) :
    cleaning_txtOpt t = some (cleaning_txt t) := by
  rw [cleaning_txtOpt, cleaning_txt, rtStripOpt_eq]
  rfl

/-- Claim C1, evaluated at the failing input: `cleaning_txt` keeps `'.'`
unchanged — `txt.replace('\x5cW', '')` replaces a two-character literal,
not the regex class, so punctuation is not removed, contradicting the
function's own docstring ("removes ... special characters") and the spec. -/
theorem claim_C1_eval_dot :
    cleaning_txt (".".toList) = ".".toList ∧
    onlyUpperDigit (cleaning_txt (".".toList)) = false ∧
    cleaning_txt (".".toList) ≠ [] := by decide

/-- Claim C4, counterexample: `"A:XRTB:C"` contains the marker and a colon,
and a colon follows the marker, yet `cleaning_txt` (and its
marker-stripping step) leaves the text unchanged, because the code uses
the position of the first colon overall — here before the marker — so the
removed slice `txt[3:2]` is empty.  The claim demands removal of `"RTB:"`
(the spec-worded `rtStripSpec` produces `"A:XC"`). -/
theorem claim_C4_counterexample :
    containsSub rtTok ("A:XRTB:C".toList) = true ∧
    containsSub colonTok ("A:XRTB:C".toList) = true ∧
    cleaning_txt ("A:XRTB:C".toList) = "A:XRTB:C".toList ∧
    rtStrip ("A:XRTB:C".toList) = "A:XRTB:C".toList ∧
    rtStripSpec ("A:XRTB:C".toList) = "A:XC".toList ∧
    ("A:XC".toList : List Char) ≠ "A:XRTB:C".toList := by decide

/-- Claim C4 (amended): with no marker or no colon the step is the
identity; when both are present, let `p1` be the first index of `RT` and
`p2` the first index of `:` in the whole text (not the first colon after
the marker): if `p2 < p1` the text is unchanged (the slice is empty), and
if `p1 ≤ p2` every leftmost non-overlapping occurrence of the slice from
`p1` through `p2` inclusive is removed (`str.replace` removes all
occurrences, not only the first). -/
theorem claim_C4_rtStrip (t : List Char) :
    (¬(containsSub rtTok t = true ∧ containsSub colonTok t = true) →
      rtStrip t = t) ∧
    (∀ p1 p2, firstSubIdx rtTok t = some p1 →
      firstSubIdx colonTok t = some p2 →
      (p2 < p1 → rtStrip t = t) ∧
      (p1 ≤ p2 →
        rtStrip t = pyReplace t ((t.drop p1).take (p2 + 1 - p1)))) := by
  constructor
  · exact rtStrip_id_of_not
  · intro p1 p2 h1 h2
    have hg : (containsSub rtTok t && containsSub colonTok t) = true := by
      simp [first_contains h1, first_contains h2]
    constructor
    · intro hlt
      rw [rtStrip, if_pos hg, h1, h2]
      simp only [Option.getD_some]
      rw [show p2 + 1 - p1 = 0 by omega, List.take_zero, pyReplace_nil]
    · intro _
      rw [rtStrip, if_pos hg, h1, h2]
      simp only [Option.getD_some]

/-- Claim C4 witness: at `"RT:A RT:B"` the amended description applies
with `p1 = 0 ≤ 2 = p2`, and the step indeed removes all occurrences of
the slice `"RT:"`, yielding `"A B"`. -/
theorem claim_C4_witness :
    firstSubIdx rtTok ("RT:A RT:B".toList) = some 0 ∧
    firstSubIdx colonTok ("RT:A RT:B".toList) = some 2 ∧
    rtStrip ("RT:A RT:B".toList) =
      pyReplace ("RT:A RT:B".toList) ((("RT:A RT:B".toList).drop 0).take 3) ∧
    rtStrip ("RT:A RT:B".toList) = "A B".toList := by
  refine ⟨by decide, by decide, ?_, by decide⟩
  exact ((claim_C4_rtStrip ("RT:A RT:B".toList)).2 0 2 (by decide)
    (by decide)).2 (by decide)

/-- The normalizer never outputs a `#`. -/
theorem hash_not_mem_cleaning (t : List Char) : '#' ∉ cleaning_txt t := by
  rw [cleaning_txt, cleanTail]
  intro h
  have h6 := mem_pyReplace h
  rw [show hashTok = ['#'] from rfl, pyReplace_single] at h6
  have := (List.mem_filter.mp h6).2
  simp at this

/-- The normalizer never outputs a newline. -/
theorem nl_not_mem_cleaning (t : List Char) : '\n' ∉ cleaning_txt t := by
  rw [cleaning_txt, cleanTail]
  intro h
  rw [show nlTok = ['\n'] from rfl, pyReplace_single] at h
  have := (List.mem_filter.mp h).2
  simp at this

/-- Claim C3, counterexample: `cleaning_txt` is not idempotent.  For
`"RTX:RT:Y"` the first pass removes all copies of the slice `"RTX:"`,
leaving `"RT:Y"`, which still contains a marker and a colon, so a second
pass strips further to `"Y"`.  Idempotence also fails without any marker:
`"ж"` upper-cases to `Ж` and transliterates to the mixed-case `"Zh"`,
which a second pass upper-cases to `"ZH"`. -/
theorem claim_C3_counterexample :
    cleaning_txt (cleaning_txt ("RTX:RT:Y".toList)) ≠
      cleaning_txt ("RTX:RT:Y".toList) ∧
    cleaning_txt ("ж".toList) = "Zh".toList ∧
    cleaning_txt (cleaning_txt ("ж".toList)) = "ZH".toList ∧
    cleaning_txt (cleaning_txt ("ж".toList)) ≠ cleaning_txt ("ж".toList) := by
  decide

/-- Claim C3 (amended): `cleaning_txt` is idempotent on every input whose
normalized form does not again trigger one of its rewriting steps: the
output is unchanged by upper-casing (transliteration can emit lowercase
letters, as in `ж` to `Zh`), does not contain both `RT` and `:`, contains
no link-regex match, and does not contain the literal `\x5cW`.  (Each
condition is forced by a failure of the unconditional claim:
`cleaning_txt "ж" = "Zh"` violates idempotence through the upper-casing
step, `cleaning_txt "RTX:RT:Y" = "RT:Y"` through the marker step,
`cleaning_txt "HTT#P://X" = "HTTP://X"` through the link step, and a
backslash-newline-W input through the literal replace.) -/
theorem claim_C3_amended (t : List Char)
    (h0 : (cleaning_txt t).map pyUpperChar = cleaning_txt t)
    (h1 : ¬(containsSub rtTok (cleaning_txt t) = true ∧
            containsSub colonTok (cleaning_txt t) = true))
    (h2 : hasLink (cleaning_txt t) = false)
    (h3 : containsSub bwTok (cleaning_txt t) = false) :
    cleaning_txt (cleaning_txt t) = cleaning_txt t := by
  have hmap : (cleaning_txt t).map pyUpperChar = cleaning_txt t := h0
  have hrt : rtStrip (cleaning_txt t) = cleaning_txt t := rtStrip_id_of_not h1
  have hlink : reSubLinks (cleaning_txt t) = cleaning_txt t :=
    reSubLinks_of_no_link h2
  have huni : (cleaning_txt t).flatMap unidecodeChar = cleaning_txt t :=
    flatMap_unidecode_id (cleaning_chars_ascii t)
  have hbw : pyReplace (cleaning_txt t) bwTok = cleaning_txt t :=
    pyReplace_of_not_contains h3
  have hhash : pyReplace (cleaning_txt t) hashTok = cleaning_txt t := by
    rw [show hashTok = ['#'] from rfl, pyReplace_single]
    refine List.filter_eq_self.mpr (fun x hx => ?_)
    simp only [Bool.not_eq_true', decide_eq_false_iff_not]
    rintro rfl
    exact hash_not_mem_cleaning t hx
  have hnl : pyReplace (cleaning_txt t) nlTok = cleaning_txt t := by
    rw [show nlTok = ['\n'] from rfl, pyReplace_single]
    refine List.filter_eq_self.mpr (fun x hx => ?_)
    simp only [Bool.not_eq_true', decide_eq_false_iff_not]
    rintro rfl
    exact nl_not_mem_cleaning t hx
  conv_lhs => rw [cleaning_txt, hmap, hrt, cleanTail, hlink, huni, hbw,
    hhash, hnl]

/-- Claim C3 witness: `"HELLO"` satisfies the amended hypotheses and the
normalizer is idempotent there. -/
theorem claim_C3_witness :
    (cleaning_txt ("HELLO".toList)).map pyUpperChar =
      cleaning_txt ("HELLO".toList) ∧
    (¬(containsSub rtTok (cleaning_txt ("HELLO".toList)) = true ∧
       containsSub colonTok (cleaning_txt ("HELLO".toList)) = true)) ∧
    hasLink (cleaning_txt ("HELLO".toList)) = false ∧
    containsSub bwTok (cleaning_txt ("HELLO".toList)) = false ∧
    cleaning_txt (cleaning_txt ("HELLO".toList)) =
      cleaning_txt ("HELLO".toList) :=
  ⟨by decide, by decide, by decide, by decide,
    claim_C3_amended _ (by decide) (by decide) (by decide) (by decide)⟩

/-- Claim C2: construction with `pt`, `en`, or no language succeeds; any
other language raises the configuration error naming the permitted set
`all_langs = ["pt", "en"]`.  The constructor is a pure function — it
performs no network or file I/O. -/
theorem claim_C2_init (lang : Option String) :
    ((lang = none ∨ lang = some "pt" ∨ lang = some "en") →
      TAinit lang = Except.ok ⟨lang⟩) ∧
    (∀ l, lang = some l → l ∉ all_langs →
      TAinit lang =
        Except.error ("Language not avaible. Choose between: ", all_langs) ∧
      "pt" ∈ all_langs ∧ "en" ∈ all_langs) := by
  constructor
  · rintro (rfl | rfl | rfl) <;> rfl
  · rintro l rfl hmem
    refine ⟨?_, by decide, by decide⟩
    rw [TAinit, if_pos]
    refine decide_eq_true ⟨?_, by simp⟩
    intro hin
    rcases List.mem_map.mp hin with ⟨l', hl', heq⟩
    cases heq
    exact hmem hl'

/-- Claim C2 witness: `"fr"` is rejected with the error naming
`["pt", "en"]`, while `"pt"` is accepted. -/
theorem claim_C2_witness :
    (TAinit (some "fr") =
        Except.error ("Language not avaible. Choose between: ", all_langs) ∧
      "pt" ∈ all_langs ∧ "en" ∈ all_langs) ∧
    TAinit (some "pt") = Except.ok ⟨some "pt"⟩ :=
  ⟨(claim_C2_init (some "fr")).2 "fr" rfl (by decide),
    (claim_C2_init (some "pt")).1 (Or.inr (Or.inl rfl))⟩

/-- Claim C8: aggregating the empty Post collection raises no error and
every view — top words, location grouping, author grouping, verified
subset, most-liked and most-retweeted superlatives — is empty. -/
theorem claim_C8_empty (lang : Option String) (swPt swEn : List (List Char)) :
    top10 lang swPt swEn [] = [] ∧ locationView [] = [] ∧
    verifiedView [] = [] ∧ mostLiked [] = [] ∧ mostRetweeted [] = [] ∧
    byUser [] = [] := by
  refine ⟨?_, rfl, rfl, rfl, rfl, rfl⟩
  rw [top10, survivors, strippedTokens, stopFiltered]
  by_cases h : lang = some "pt" <;>
    simp [h, rawTokens, groupCounts, wordQtd, uniqueList, sortLexAsc,
      sortCntAsc]

/-- Claim C5: a token is dropped by the stopword stage exactly when its
`cleaning_txt` form is in the stopword set selected for the language, and
the selected set is the English one for `pt`-less configurations: for no
language at all and for every language other than `"pt"`.  "Unspecified"
is never "no filtering". -/
theorem claim_C5_stopwords (lang : Option String)
    (swPt swEn : List (List Char)) (posts : List Post) :
    chosenStopwords none swPt swEn = swEn ∧
    (∀ l, l ≠ "pt" → chosenStopwords (some l) swPt swEn = swEn) ∧
    chosenStopwords (some "pt") swPt swEn = swPt ∧
    stopFiltered lang swPt swEn posts =
      (rawTokens posts).filter
        (fun w => !decide (cleaning_txt w ∈ chosenStopwords lang swPt swEn)) ∧
    (∀ w, w ∈ stopFiltered lang swPt swEn posts ↔
      (w ∈ rawTokens posts ∧
        cleaning_txt w ∉ chosenStopwords lang swPt swEn)) := by
  have hfe : stopFiltered lang swPt swEn posts =
      (rawTokens posts).filter
        (fun w => !decide (cleaning_txt w ∈ chosenStopwords lang swPt swEn)) := by
    by_cases h : lang = some "pt" <;> simp [stopFiltered, chosenStopwords, h]
  refine ⟨by simp [chosenStopwords], fun l hl => by simp [chosenStopwords, hl],
    by simp [chosenStopwords], hfe, fun w => ?_⟩
  rw [hfe, List.mem_filter]
  simp

/-- Claim C5 witness: with the language `"fr"` (not `"pt"`), the English
set is the one selected. -/
theorem claim_C5_witness :
    chosenStopwords (some "fr") [['P']] [['E']] = [['E']] :=
  (claim_C5_stopwords (some "fr") [['P']] [['E']] []).2.1 "fr" (by decide)

/-- Every element is bounded by the running maximum. -/
theorem foldr_max_le (l : List Nat) : ∀ x ∈ l, x ≤ l.foldr Nat.max 0 := by
  induction l with
  | nil => intro x hx; cases hx
  | cons a as ih =>
    intro x hx
    rcases List.mem_cons.mp hx with rfl | hmem
    · exact Nat.le_max_left _ _
    · exact Nat.le_trans (ih x hmem) (Nat.le_max_right _ _)

/-- A non-empty list attains its running maximum. -/
theorem foldr_max_attained {l : List Nat} (h : l ≠ []) :
    ∃ x ∈ l, x = l.foldr Nat.max 0 := by
  induction l with
  | nil => exact absurd rfl h
  | cons a as ih =>
    by_cases hle : as.foldr Nat.max 0 ≤ a
    · refine ⟨a, List.mem_cons_self _ _, ?_⟩
      simp only [List.foldr_cons]
      exact (Nat.max_eq_left hle).symm
    · have hne : as ≠ [] := by
        intro e
        rw [e] at hle
        exact hle (Nat.zero_le a)
      obtain ⟨x, hx, hxe⟩ := ih hne
      refine ⟨x, List.mem_cons_of_mem _ hx, ?_⟩
      rw [hxe]
      simp only [List.foldr_cons]
      exact (Nat.max_eq_right (Nat.le_of_not_le hle)).symm

/-- `filter` followed by `take 1` yields the first element satisfying the
predicate, together with a split of the list at that element. -/
theorem filter_take_one {α : Type} (l : List α) (p : α → Bool)
    (hx : ∃ x ∈ l, p x = true) :
    ∃ l1 x l2, l = l1 ++ x :: l2 ∧ p x = true ∧
      (∀ y ∈ l1, p y = false) ∧ (l.filter p).take 1 = [x] := by
  induction l with
  | nil => obtain ⟨x, hx, _⟩ := hx; cases hx
  | cons a as ih =>
    by_cases hpa : p a = true
    · refine ⟨[], a, as, rfl, hpa, ?_, ?_⟩
      · intro y hy
        cases hy
      · rw [List.filter_cons_of_pos hpa, List.take_succ_cons, List.take_zero]
    · have hpa' : p a = false := Bool.of_not_eq_true hpa
      obtain ⟨x, hxm, hxp⟩ := hx
      rcases List.mem_cons.mp hxm with rfl | hmem
      · exact absurd hxp hpa
      · obtain ⟨l1, x', l2, hsplit, hp, hl1, htake⟩ := ih ⟨x, hmem, hxp⟩
        refine ⟨a :: l1, x', l2, by rw [hsplit]; rfl, hp, ?_, ?_⟩
        · intro y hy
          rcases List.mem_cons.mp hy with rfl | hy'
          · exact hpa'
          · exact hl1 y hy'
        · rwa [List.filter_cons_of_neg (by simp [hpa'])]

/-- The first row attaining the maximum of a projection, as selected by
`frame[frame[col] == frame[col].max()].iloc[0:1]`. -/
theorem superlative_first (f : Post → Nat) (posts : List Post)
    (h : posts ≠ []) :
    ∃ l1 p l2, posts = l1 ++ p :: l2 ∧
      ((posts.filter
        (fun q => decide (f q = (posts.map f).foldr Nat.max 0))).take 1) = [p] ∧
      f p = (posts.map f).foldr Nat.max 0 ∧ (∀ q ∈ posts, f q ≤ f p) ∧
      ∀ q ∈ l1, f q ≠ (posts.map f).foldr Nat.max 0 := by
  have hmapne : posts.map f ≠ [] := by
    intro e
    exact h (List.map_eq_nil_iff.mp e)
  obtain ⟨n, hn, hne⟩ := foldr_max_attained hmapne
  obtain ⟨q0, hq0, rfl⟩ := List.mem_map.mp hn
  obtain ⟨l1, x, l2, hsplit, hp, hl1, htake⟩ :=
    filter_take_one posts (fun q => decide (f q = (posts.map f).foldr Nat.max 0))
      ⟨q0, hq0, decide_eq_true hne⟩
  have hx : f x = (posts.map f).foldr Nat.max 0 := of_decide_eq_true hp
  refine ⟨l1, x, l2, hsplit, htake, hx, ?_, ?_⟩
  · intro q hq
    rw [hx]
    exact foldr_max_le _ _ (List.mem_map_of_mem f hq)
  · intro q hq
    exact of_decide_eq_false (hl1 q hq)

/-- Claim C7: on a non-empty collection, the most-liked view holds exactly
one post: the first, in ingestion order, among those attaining the maximum
like count; likewise for retweets. -/
theorem claim_C7_superlatives (posts : List Post) (h : posts ≠ []) :
    (∃ l1 p l2, posts = l1 ++ p :: l2 ∧ mostLiked posts = [p] ∧
      p.likes = maxLikes posts ∧ (∀ q ∈ posts, q.likes ≤ p.likes) ∧
      ∀ q ∈ l1, q.likes ≠ maxLikes posts) ∧
    (∃ l1 p l2, posts = l1 ++ p :: l2 ∧ mostRetweeted posts = [p] ∧
      p.retweets = maxRetweets posts ∧ (∀ q ∈ posts, q.retweets ≤ p.retweets) ∧
      ∀ q ∈ l1, q.retweets ≠ maxRetweets posts) :=
  ⟨superlative_first Post.likes posts h,
    superlative_first Post.retweets posts h⟩

/-- Claim C7 witness: two posts tie on likes; the view returns exactly the
first of them. -/
theorem claim_C7_witness :
    ([demoPostA, demoPostB] : List Post) ≠ [] ∧
    (∃ l1 p l2, [demoPostA, demoPostB] = l1 ++ p :: l2 ∧
      mostLiked [demoPostA, demoPostB] = [p] ∧
      p.likes = maxLikes [demoPostA, demoPostB] ∧
      (∀ q ∈ [demoPostA, demoPostB], q.likes ≤ p.likes) ∧
      ∀ q ∈ l1, q.likes ≠ maxLikes [demoPostA, demoPostB]) :=
  ⟨by simp, (claim_C7_superlatives [demoPostA, demoPostB] (by simp)).1⟩

/-! ### The lexicographic key order and the two sorts of the model -/

/-- Characters with equal code points are equal. -/
theorem char_eq_of_toNat {c d : Char} (h : c.toNat = d.toNat) : c = d :=
  Char.ext (UInt32.ext h)

/-- `lexLt` is irreflexive. -/
theorem lexLt_irrefl (l : List Char) : lexLt l l = false := by
  induction l with
  | nil => rfl
  | cons c cs ih => simp [lexLt, ih]

/-- `lexLt` is transitive. -/
theorem lexLt_trans : ∀ {a b c : List Char},
    lexLt a b = true → lexLt b c = true → lexLt a c = true := by
  intro a
  induction a with
  | nil =>
    intro b c h1 h2
    match b, c with
    | [], _ => cases h1
    | _ :: _, [] => cases h2
    | _ :: _, _ :: _ => rfl
  | cons x xs ih =>
    intro b c h1 h2
    match b, c with
    | [], _ => cases h1
    | _ :: _, [] => cases h2
    | y :: ys, z :: zs =>
      rw [lexLt] at h1 h2 ⊢
      rw [Bool.or_eq_true] at h1 h2 ⊢
      rcases h1 with h1 | h1 <;> rcases h2 with h2 | h2
      · exact Or.inl (by simp at h1 h2 ⊢; omega)
      · rw [Bool.and_eq_true] at h2
        have := of_decide_eq_true h2.1
        exact Or.inl (by simp at h1 ⊢; omega)
      · rw [Bool.and_eq_true] at h1
        have := of_decide_eq_true h1.1
        exact Or.inl (by simp at h2 ⊢; omega)
      · rw [Bool.and_eq_true] at h1 h2
        refine Or.inr ?_
        rw [Bool.and_eq_true]
        have e1 := of_decide_eq_true h1.1
        have e2 := of_decide_eq_true h2.1
        exact ⟨decide_eq_true (e1.trans e2), ih h1.2 h2.2⟩

/-- Two strings neither of which is below the other are equal. -/
theorem lexLt_antisymm : ∀ {a b : List Char},
    lexLt a b = false → lexLt b a = false → a = b := by
  intro a
  induction a with
  | nil =>
    intro b h1 _
    match b with
    | [] => rfl
    | _ :: _ => cases h1
  | cons x xs ih =>
    intro b h1 h2
    match b with
    | [] => cases h2
    | y :: ys =>
      rw [lexLt, Bool.or_eq_false_iff, Bool.and_eq_false_iff] at h1 h2
      have hxy : x.toNat = y.toNat := by
        have l1 := of_decide_eq_false h1.1
        have l2 := of_decide_eq_false h2.1
        omega
      have exy : x = y := char_eq_of_toNat hxy
      subst exy
      have t1 : lexLt xs ys = false := by
        rcases h1.2 with h | h
        · rw [decide_eq_false_iff_not] at h; exact absurd rfl h
        · exact h
      have t2 : lexLt ys xs = false := by
        rcases h2.2 with h | h
        · rw [decide_eq_false_iff_not] at h; exact absurd rfl h
        · exact h
      rw [ih t1 t2]

/-- `lexLt` is asymmetric. -/
theorem lexLt_asymm {a b : List Char} (h : lexLt a b = true) :
    lexLt b a = false := by
  cases hba : lexLt b a
  · rfl
  · have := lexLt_trans h hba
    rw [lexLt_irrefl] at this
    cases this

/-- Non-strict comparison is transitive. -/
theorem lexLt_false_trans {a b c : List Char} (h1 : lexLt b a = false)
    (h2 : lexLt c b = false) : lexLt c a = false := by
  cases hca : lexLt c a
  · rfl
  · cases hbc : lexLt b c with
    | true =>
      have hba := lexLt_trans hbc hca
      rw [h1] at hba
      exact hba.symm
    | false =>
      rw [lexLt_antisymm hbc h2] at h1
      rw [h1] at hca
      exact hca.symm

/-- Inserting permutes to pushing on the front. -/
theorem insLex_perm (w : List Char) (l : List (List Char)) :
    List.Perm (insLex w l) (w :: l) := by
  induction l with
  | nil => exact List.Perm.refl _
  | cons v vs ih =>
    rw [insLex]
    by_cases h : lexLt v w = true
    · rw [if_pos h]
      exact (ih.cons v).trans (List.Perm.swap _ _ _)
    · rw [if_neg h]

/-- The key sort permutes its input. -/
theorem sortLexAsc_perm (l : List (List Char)) :
    List.Perm (sortLexAsc l) l := by
  induction l with
  | nil => exact List.Perm.refl _
  | cons w ws ih => exact (insLex_perm w (sortLexAsc ws)).trans (ih.cons w)

/-- Insertion preserves being sorted (non-strictly) by `lexLt`. -/
theorem insLex_pairwise {w : List Char} :
    ∀ {l : List (List Char)},
      l.Pairwise (fun a b => lexLt b a = false) →
      (insLex w l).Pairwise (fun a b => lexLt b a = false) := by
  intro l
  induction l with
  | nil =>
    intro _
    simp [insLex]
  | cons v vs ih =>
    intro hl
    obtain ⟨hv, hvs⟩ := List.pairwise_cons.mp hl
    rw [insLex]
    by_cases h : lexLt v w = true
    · rw [if_pos h]
      refine List.pairwise_cons.mpr ⟨?_, ih hvs⟩
      intro z hz
      rcases List.mem_cons.mp ((insLex_perm w vs).mem_iff.mp hz) with rfl | hzvs
      · exact lexLt_asymm h
      · exact hv z hzvs
    · rw [if_neg h]
      refine List.pairwise_cons.mpr ⟨?_, hl⟩
      intro z hz
      rcases List.mem_cons.mp hz with rfl | hzvs
      · exact Bool.of_not_eq_true h
      · exact lexLt_false_trans (Bool.of_not_eq_true h) (hv z hzvs)

/-- The key sort is sorted non-strictly by `lexLt`. -/
theorem sortLexAsc_pairwise (l : List (List Char)) :
    (sortLexAsc l).Pairwise (fun a b => lexLt b a = false) := by
  induction l with
  | nil => simp [sortLexAsc]
  | cons w ws ih => exact insLex_pairwise ih

/-- On a duplicate-free input the key sort is strictly ascending. -/
theorem sortLexAsc_pairwise_lt {l : List (List Char)} (hnd : l.Nodup) :
    (sortLexAsc l).Pairwise (fun a b => lexLt a b = true) := by
  have hnd' : (sortLexAsc l).Nodup := (sortLexAsc_perm l).nodup_iff.mpr hnd
  refine ((sortLexAsc_pairwise l).and hnd').imp ?_
  rintro a b ⟨hba, hne⟩
  cases hab : lexLt a b
  · exact absurd (lexLt_antisymm hab hba) hne
  · rfl

/-- The distinct-values list is duplicate-free. -/
theorem uniqueList_nodup (s : List (List Char)) : (uniqueList s).Nodup := by
  induction s with
  | nil => simp [uniqueList]
  | cons w ws ih =>
    rw [uniqueList]
    refine List.Pairwise.cons ?_ (ih.filter _)
    intro v hv
    have := (List.mem_filter.mp hv).2
    simp only [Bool.not_eq_true', decide_eq_false_iff_not] at this
    exact fun e => this e.symm

/-- Membership in the distinct-values list is membership in the stream. -/
theorem mem_uniqueList {s : List (List Char)} {x : List Char} :
    x ∈ uniqueList s ↔ x ∈ s := by
  induction s with
  | nil => simp [uniqueList]
  | cons w ws ih =>
    rw [uniqueList]
    constructor
    · intro hx
      rcases List.mem_cons.mp hx with rfl | hmem
      · exact List.mem_cons_self _ _
      · exact List.mem_cons_of_mem _ (ih.mp (List.mem_filter.mp hmem).1)
    · intro hx
      rcases List.mem_cons.mp hx with rfl | hmem
      · exact List.mem_cons_self _ _
      · by_cases hxw : x = w
        · exact hxw ▸ List.mem_cons_self _ _
        · refine List.mem_cons_of_mem _ (List.mem_filter.mpr ⟨ih.mpr hmem, ?_⟩)
          simpa using hxw

/-- Count insertion permutes to pushing on the front. -/
theorem insCnt_perm (x : List Char × Nat) (l : List (List Char × Nat)) :
    List.Perm (insCnt x l) (x :: l) := by
  induction l with
  | nil => exact List.Perm.refl _
  | cons y ys ih =>
    rw [insCnt]
    by_cases h : y.2 < x.2
    · rw [if_pos h]
      exact (ih.cons y).trans (List.Perm.swap _ _ _)
    · rw [if_neg h]

/-- The count sort permutes its input. -/
theorem sortCntAsc_perm (l : List (List Char × Nat)) :
    List.Perm (sortCntAsc l) l := by
  induction l with
  | nil => exact List.Perm.refl _
  | cons x xs ih => exact (insCnt_perm x (sortCntAsc xs)).trans (ih.cons x)

/-- Inserting a row whose word is lexicographically above every word in an
`ordA`-sorted list keeps the list `ordA`-sorted: the insertion walks past
strictly smaller counts and lands before the first equal-or-larger count,
which realizes the stability of the ascending sort. -/
theorem insCnt_pairwise {x : List Char × Nat} :
    ∀ {l : List (List Char × Nat)}, l.Pairwise ordA →
      (∀ y ∈ l, lexLt x.1 y.1 = true) → (insCnt x l).Pairwise ordA := by
  intro l
  induction l with
  | nil =>
    intro _ _
    simp [insCnt]
  | cons y ys ih =>
    intro hl hx
    obtain ⟨hy, hys⟩ := List.pairwise_cons.mp hl
    rw [insCnt]
    by_cases h : y.2 < x.2
    · rw [if_pos h]
      refine List.pairwise_cons.mpr ⟨?_, ih hys
        (fun z hz => hx z (List.mem_cons_of_mem _ hz))⟩
      intro z hz
      rcases List.mem_cons.mp ((insCnt_perm x ys).mem_iff.mp hz) with rfl | hzys
      · exact Or.inl h
      · exact hy z hzys
    · rw [if_neg h]
      refine List.pairwise_cons.mpr ⟨?_, hl⟩
      intro z hz
      rcases List.mem_cons.mp hz with rfl | hzys
      · by_cases hxy : x.2 < z.2
        · exact Or.inl hxy
        · exact Or.inr ⟨by omega, hx z (List.mem_cons_self _ _)⟩
      · rcases hy z hzys with hlt | ⟨heq, _⟩
        · exact Or.inl (by omega)
        · by_cases hxz : x.2 < z.2
          · exact Or.inl hxz
          · exact Or.inr ⟨by omega, hx z (List.mem_cons_of_mem _ hzys)⟩

/-- Sorting a table whose words are strictly ascending produces an
`ordA`-sorted table. -/
theorem sortCntAsc_pairwise :
    ∀ {l : List (List Char × Nat)},
      l.Pairwise (fun a b => lexLt a.1 b.1 = true) →
      (sortCntAsc l).Pairwise ordA := by
  intro l
  induction l with
  | nil =>
    intro _
    simp [sortCntAsc]
  | cons x xs ih =>
    intro hl
    obtain ⟨hx, hxs⟩ := List.pairwise_cons.mp hl
    exact insCnt_pairwise (ih hxs)
      (fun y hy => hx y ((sortCntAsc_perm xs).mem_iff.mp hy))

/-- The words of the groupby table are strictly ascending. -/
theorem wordQtd_pairwise (s : List (List Char)) :
    (wordQtd s).Pairwise (fun a b => lexLt a.1 b.1 = true) := by
  rw [wordQtd, List.pairwise_map]
  exact sortLexAsc_pairwise_lt (uniqueList_nodup s)

/-- The descending word-count table is `ordD`-sorted: counts are
non-increasing, and rows with equal counts appear in descending
lexicographic word order. -/
theorem groupCounts_pairwise (s : List (List Char)) :
    (groupCounts s).Pairwise ordD := by
  rw [groupCounts, List.pairwise_reverse]
  exact (sortCntAsc_pairwise (wordQtd_pairwise s)).imp (fun h => h)

/-- The words of the groupby table are exactly the distinct stream
values. -/
theorem wordQtd_fst (s : List (List Char)) :
    (wordQtd s).map Prod.fst = sortLexAsc (uniqueList s) := by
  rw [wordQtd, List.map_map]
  exact List.map_id _

/-- The words of the descending table are a permutation of the distinct
surviving values. -/
theorem groupCounts_fst_perm (s : List (List Char)) :
    List.Perm ((groupCounts s).map Prod.fst) (uniqueList s) := by
  rw [groupCounts, List.map_reverse]
  refine (List.reverse_perm _).trans ?_
  refine (((sortCntAsc_perm (wordQtd s)).map Prod.fst).trans ?_)
  rw [wordQtd_fst]
  exact sortLexAsc_perm _

/-- Every row of the descending table records the exact occurrence count
of its word in the stream, and its word occurs in the stream. -/
theorem mem_groupCounts {s : List (List Char)} {p : List Char × Nat}
    (hp : p ∈ groupCounts s) : p.2 = countW s p.1 ∧ p.1 ∈ s := by
  have h1 : p ∈ sortCntAsc (wordQtd s) :=
    (List.reverse_perm _).mem_iff.mp (by rwa [groupCounts] at hp)
  have h2 : p ∈ wordQtd s := (sortCntAsc_perm _).mem_iff.mp h1
  rw [wordQtd] at h2
  obtain ⟨w, hw, rfl⟩ := List.mem_map.mp h2
  exact ⟨rfl, mem_uniqueList.mp ((sortLexAsc_perm _).mem_iff.mp hw)⟩

/-- Claim C6 (amended): the ranking's rows are exactly the distinct
surviving normalized tokens with their occurrence counts; the table is
sorted descending by count, but ties are broken by descending
lexicographic word order — pandas forms groups in ascending key order and
`sort_values(ascending=False)` reverses an ascending sort — not by
first-encountered order; at most the first ten rows are returned. -/
theorem claim_C6_ranking (lang : Option String) (swPt swEn : List (List Char))
    (posts : List Post) :
    top10 lang swPt swEn posts =
      (groupCounts (survivors lang swPt swEn posts)).take 10 ∧
    List.Perm ((groupCounts (survivors lang swPt swEn posts)).map Prod.fst)
      (uniqueList (survivors lang swPt swEn posts)) ∧
    (∀ p ∈ groupCounts (survivors lang swPt swEn posts),
      p.2 = countW (survivors lang swPt swEn posts) p.1 ∧
      p.1 ∈ survivors lang swPt swEn posts) ∧
    (groupCounts (survivors lang swPt swEn posts)).Pairwise ordD ∧
    (top10 lang swPt swEn posts).length =
      min 10 (uniqueList (survivors lang swPt swEn posts)).length := by
  refine ⟨rfl, groupCounts_fst_perm _, fun p hp => mem_groupCounts hp,
    groupCounts_pairwise _, ?_⟩
  rw [top10, List.length_take]
  congr 1
  calc (groupCounts (survivors lang swPt swEn posts)).length
      = ((groupCounts (survivors lang swPt swEn posts)).map Prod.fst).length :=
        (List.length_map _ _).symm
    _ = _ := (groupCounts_fst_perm _).length_eq

/-- Claim C6, counterexample: for the single post `"A B"` the surviving
tokens are `A` then `B` (first-encountered order `A, B`), yet the code
ranks `B` before `A`: groups are formed alphabetically and the descending
sort reverses them, so ties are **not** broken by first-encountered order
(the spec-worded `rankingSpecFE` puts `A` first). -/
theorem claim_C6_counterexample :
    survivors none [] [] [demoPostAB] = ["A".toList, "B".toList] ∧
    top10 none [] [] [demoPostAB] = [("B".toList, 1), ("A".toList, 1)] ∧
    rankingSpecFE (survivors none [] [] [demoPostAB]) =
      [("A".toList, 1), ("B".toList, 1)] ∧
    top10 none [] [] [demoPostAB] ≠
      rankingSpecFE (survivors none [] [] [demoPostAB]) := by decide

/-- Occurrence counts ignore the removal of a different value. -/
theorem count_filter_ne {s : List (List Char)} {w v : List Char}
    (hvw : v ≠ w) :
    countW (s.filter (fun u => !decide (u = w))) v = countW s v := by
  rw [countW, countW, List.filter_filter]
  congr 1
  apply List.filter_congr
  intro u _
  by_cases h : u = v
  · subst h
    simp [hvw]
  · simp [h]

/-- Summing the occurrence counts of a duplicate-free list of values that
covers a stream counts every element of the stream exactly once. -/
theorem sum_counts_eq_length :
    ∀ (ws s : List (List Char)), ws.Nodup → (∀ x ∈ s, x ∈ ws) →
      ((ws.map (fun w => countW s w)).sum) = s.length := by
  intro ws
  induction ws with
  | nil =>
    intro s _ hcov
    have hs : s = [] :=
      List.eq_nil_iff_forall_not_mem.mpr (fun x hx => by cases hcov x hx)
    subst hs
    rfl
  | cons w ws' ih =>
    intro s hnd hcov
    obtain ⟨hw, hnd'⟩ := List.pairwise_cons.mp hnd
    rw [List.map_cons, List.sum_cons]
    have hrest : (ws'.map (fun v => countW s v)).sum =
        (ws'.map (fun v => countW (s.filter (fun u => !decide (u = w))) v)).sum := by
      congr 1
      apply List.map_congr_left
      intro v hv
      exact (count_filter_ne (fun e => hw v hv e.symm)).symm
    have hcov' : ∀ x ∈ s.filter (fun u => !decide (u = w)), x ∈ ws' := by
      intro x hx
      obtain ⟨hxs, hxw⟩ := List.mem_filter.mp hx
      have hne : x ≠ w := by simpa using hxw
      rcases List.mem_cons.mp (hcov x hxs) with rfl | h
      · exact absurd rfl hne
      · exact h
    rw [hrest, ih _ hnd' hcov']
    have hsplit := length_filter_split s (fun v => decide (v = w))
    rw [countW]
    omega

/-- The counts of the descending word-count table sum to the number of
surviving tokens. -/
theorem sumSnd_groupCounts (s : List (List Char)) :
    sumSnd (groupCounts s) = s.length := by
  rw [sumSnd, groupCounts, List.map_reverse, List.sum_reverse]
  rw [((sortCntAsc_perm (wordQtd s)).map Prod.snd).sum_eq]
  rw [wordQtd, List.map_map]
  exact sum_counts_eq_length _ s
    ((sortLexAsc_perm _).nodup_iff.mpr (uniqueList_nodup s))
    (fun x hx => (sortLexAsc_perm _).mem_iff.mpr (mem_uniqueList.mpr hx))

/-- The stopword filter, written with the selected set (used by several
length bounds; equal to the branch-duplicated `stopFiltered`). -/
theorem stopFiltered_eq (lang : Option String) (swPt swEn : List (List Char))
    (posts : List Post) :
    stopFiltered lang swPt swEn posts =
      (rawTokens posts).filter
        (fun w => !decide (cleaning_txt w ∈ chosenStopwords lang swPt swEn)) := by
  by_cases h : lang = some "pt" <;> simp [stopFiltered, chosenStopwords, h]

/-- Claim C9: the word-ranking counts sum to at most the number of raw
whitespace-split tokens, strictly fewer as soon as some token is removed
as a stopword, as empty, or as the residual `RT`. -/
theorem claim_C9_counts (lang : Option String) (swPt swEn : List (List Char))
    (posts : List Post) :
    sumSnd (top10 lang swPt swEn posts) ≤ (rawTokens posts).length ∧
    ((∃ w ∈ rawTokens posts,
        cleaning_txt w ∈ chosenStopwords lang swPt swEn ∨
        pyStrip (cleaning_txt w) = [] ∨ pyStrip (cleaning_txt w) = rtTok) →
      sumSnd (top10 lang swPt swEn posts) < (rawTokens posts).length) := by
  have htop : sumSnd (top10 lang swPt swEn posts) ≤
      (survivors lang swPt swEn posts).length := by
    rw [top10, sumSnd, List.map_take]
    calc (((groupCounts (survivors lang swPt swEn posts)).map Prod.snd).take 10).sum
        ≤ ((groupCounts (survivors lang swPt swEn posts)).map Prod.snd).sum :=
          sum_take_le _ _
      _ = _ := sumSnd_groupCounts _
  have hsurv_le : (survivors lang swPt swEn posts).length ≤
      (stopFiltered lang swPt swEn posts).length := by
    rw [survivors]
    calc ((strippedTokens lang swPt swEn posts).filter _).length
        ≤ (strippedTokens lang swPt swEn posts).length :=
          List.length_filter_le _ _
      _ = _ := by rw [strippedTokens, List.length_map]
  have hstop_le : (stopFiltered lang swPt swEn posts).length ≤
      (rawTokens posts).length := by
    rw [stopFiltered_eq]
    exact List.length_filter_le _ _
  refine ⟨le_trans htop (le_trans hsurv_le hstop_le), ?_⟩
  rintro ⟨w, hwmem, hdrop⟩
  by_cases hsw : cleaning_txt w ∈ chosenStopwords lang swPt swEn
  · have hlt : (stopFiltered lang swPt swEn posts).length <
        (rawTokens posts).length := by
      rw [stopFiltered_eq]
      exact length_filter_lt _ _ w hwmem (by simp [hsw])
    omega
  · have hdrop' : pyStrip (cleaning_txt w) = [] ∨
        pyStrip (cleaning_txt w) = rtTok := by
      rcases hdrop with h | h
      · exact absurd h hsw
      · exact h
    have hwin : w ∈ stopFiltered lang swPt swEn posts := by
      rw [stopFiltered_eq]
      exact List.mem_filter.mpr ⟨hwmem, by simp [hsw]⟩
    have hvin : pyStrip (cleaning_txt w) ∈ strippedTokens lang swPt swEn posts := by
      rw [strippedTokens]
      exact List.mem_map_of_mem _ hwin
    have hsurv_lt : (survivors lang swPt swEn posts).length <
        (strippedTokens lang swPt swEn posts).length := by
      rw [survivors]
      refine length_filter_lt _ _ _ hvin ?_
      rcases hdrop' with h | h <;> simp [h]
    have hst : (strippedTokens lang swPt swEn posts).length =
        (stopFiltered lang swPt swEn posts).length := by
      rw [strippedTokens, List.length_map]
    omega

/-- Claim C9 witness: with `THE` in the English stopword set, the single
token of `demoPostTHE` is dropped and the ranking counts sum to `0 < 1`. -/
theorem claim_C9_witness :
    (∃ w ∈ rawTokens [demoPostTHE],
      cleaning_txt w ∈ chosenStopwords none [] ["THE".toList] ∨
      pyStrip (cleaning_txt w) = [] ∨ pyStrip (cleaning_txt w) = rtTok) ∧
    sumSnd (top10 none [] ["THE".toList] [demoPostTHE]) <
      (rawTokens [demoPostTHE]).length :=
  ⟨by decide, (claim_C9_counts none [] ["THE".toList] [demoPostTHE]).2 (by decide)⟩

/-- Claim C6 witness: the row `(B, 1)` of the concrete ranking carries the
exact occurrence count of `B` among the surviving tokens. -/
theorem claim_C6_witness :
    (("B".toList, 1) ∈ groupCounts (survivors none [] [] [demoPostAB])) ∧
    ((1 : Nat) = countW (survivors none [] [] [demoPostAB]) ("B".toList) ∧
      "B".toList ∈ survivors none [] [] [demoPostAB]) :=
  ⟨by decide,
    (claim_C6_ranking none [] [] [demoPostAB]).2.2.1 ("B".toList, 1) (by decide)⟩
